import Mathlib

/-!
# Verification of the scene-reorientation helpers

Shallow embedding, over the real numbers, of the geometry helpers shared by
`examples/04_demos/01_colmap_visualizer.py` and `examples/04_demos/plot_cameras.py`:

* `rot_from_a_to_b` — the vector-to-vector rotation routine (Rodrigues formula
  with two explicitly handled degenerate branches);
* the scene-alignment pipeline: per-camera world-space up vectors, their
  average, `R_align`, and the rigid `apply_RT` / point reorientation maps.

Machine floats are modelled as real numbers (exact arithmetic); `np.isclose`
is modelled with its documented tolerance `|x - y| <= atol + rtol * |y|`
(`atol = 1e-8`, `rtol = 1e-5`).  Division is Lean's total real division, which
matches the code in every branch where the divisor is nonzero; the zero-divisor
cases are analysed explicitly in the theorems below.
-/

namespace ViserReorient

/-- 3-component real vector (`np.ndarray` of shape `(3,)`). -/
abbrev V3 := Fin 3 → ℝ

/-- 3×3 real matrix (`np.ndarray` of shape `(3, 3)`). -/
abbrev M3 := Matrix (Fin 3) (Fin 3) ℝ

/-- Dot product of two 3-vectors (`np.dot`). -/
def dot3 (v w : V3) : ℝ := v 0 * w 0 + v 1 * w 1 + v 2 * w 2

/-- Cross product of two 3-vectors (`np.cross`). -/
def cross3 (v w : V3) : V3 :=
  ![v 1 * w 2 - v 2 * w 1, v 2 * w 0 - v 0 * w 2, v 0 * w 1 - v 1 * w 0]

/-- Euclidean norm (`np.linalg.norm`). -/
noncomputable def norm3 (v : V3) : ℝ := Real.sqrt (dot3 v v)

/-- Componentwise division by the norm (`v / np.linalg.norm(v)`). -/
noncomputable def normalize3 (v : V3) : V3 := fun i => v i / norm3 v

/-- Outer product of two 3-vectors (`np.outer`). -/
def outer3 (u w : V3) : M3 := Matrix.of fun i j => u i * w j

/-- Skew-symmetric cross-product matrix `K` of a 3-vector, exactly as written
in the source (`[[0, -v2, v1], [v2, 0, -v0], [-v1, v0, 0]]`). -/
def crossMat (v : V3) : M3 :=
  Matrix.of ![![0, -v 2, v 1], ![v 2, 0, -v 0], ![-v 1, v 0, 0]]

/-- Model of `np.isclose(x, y)` with numpy's default tolerances
`atol = 1e-8`, `rtol = 1e-5`: `|x - y| <= atol + rtol * |y|`. -/
def isclose (x y : ℝ) : Prop := |x - y| ≤ 1 / 100000000 + (1 / 100000) * |y|

noncomputable instance (x y : ℝ) : Decidable (isclose x y) :=
  inferInstanceAs (Decidable (|x - y| ≤ 1 / 100000000 + (1 / 100000) * |y|))

/-- Choice of auxiliary vector in the opposite branch:
`np.array([1.,0.,0.]) if abs(a[0]) < 0.9 else np.array([0.,1.,0.])`. -/
noncomputable def tmpOf (a : V3) : V3 :=
  if |a 0| < 9 / 10 then ![1, 0, 0] else ![0, 1, 0]

/-- Rotation axis of the opposite branch:
`axis = np.cross(a, tmp); axis /= np.linalg.norm(axis)`. -/
noncomputable def oppositeAxis (a : V3) : V3 := normalize3 (cross3 a (tmpOf a))

/-- Body of `rot_from_a_to_b` after the two input normalizations (the source
reassigns `a`, `b` to their normalized values on its first line; `rotCore`
is that body applied to the reassigned values).  Branches:
`np.isclose(c, 1.0)` → `np.eye(3)`;
`np.isclose(c, -1.0)` → `-np.eye(3) + 2*np.outer(axis, axis)`;
otherwise `np.eye(3) + K + K @ K * ((1 - c) / (s**2))` with `s = np.linalg.norm(v)`.
The unused skew matrix `K` built inside the opposite branch of the source is
dead code and has no effect on the returned value. -/
noncomputable def rotCore (a b : V3) : M3 :=
  if isclose (dot3 a b) 1 then 1
  else if isclose (dot3 a b) (-1) then
    (2 : ℝ) • outer3 (oppositeAxis a) (oppositeAxis a) - 1
  else
    1 + crossMat (cross3 a b) +
      ((1 - dot3 a b) / (norm3 (cross3 a b)) ^ 2) •
        (crossMat (cross3 a b) * crossMat (cross3 a b))

/-- The routine `rot_from_a_to_b(a, b)`: both inputs are divided by their norms
(`a = a / np.linalg.norm(a); b = b / np.linalg.norm(b)`), then the branch body
`rotCore` runs on the normalized values. -/
noncomputable def rot_from_a_to_b (a b : V3) : M3 :=
  rotCore (normalize3 a) (normalize3 b)

/-- Camera-local up convention vector `cam_local_up = np.array([0., -1., 0.])`. -/
def camLocalUp : V3 := ![0, -1, 0]

/-- World-space up vector of one pose: the camera-local up rotated by the
inverse of the pose's world-to-camera rotation
(`vtf.SO3(img.qvec).inverse() @ cam_local_up`); for a rotation matrix the
inverse is the transpose. -/
def worldUp (R : M3) : V3 := R.transpose.mulVec camLocalUp

/-- Mean of the per-pose world-space up vectors
(`world_up_samples.mean(axis=0)`). -/
noncomputable def averageUp (Rs : List M3) : V3 :=
  fun i => ((Rs.map fun R => worldUp R i).sum) / (Rs.length : ℝ)

/-- The averaged up vector after in-place normalization
(`average_up /= np.linalg.norm(average_up)`). -/
noncomputable def normalizedAverageUp (Rs : List M3) : V3 :=
  normalize3 (averageUp Rs)

/-- The fixed target up axis `target_up = np.array([0., 0., 1.])`. -/
def target_up : V3 := ![0, 0, 1]

/-- The scene-alignment rotation
`R_align = rot_from_a_to_b(average_up, target_up)`. -/
noncomputable def sceneRAlign (Rs : List M3) : M3 :=
  rot_from_a_to_b (normalizedAverageUp Rs) target_up

/-- The pose-update closure `apply_RT`:
`R_new = R_align @ R; t_new = R_align @ (t - scene_center)`. -/
def apply_RT (R_align : M3) (scene_center : V3) (R : M3) (t : V3) : M3 × V3 :=
  (R_align * R, R_align.mulVec (t - scene_center))

/-- The stacked point update `points = (R_align @ (pts_np - scene_center).T).T`
on an `n × 3` array of row points. -/
def reorientPoints {n : ℕ} (R_align : M3) (scene_center : V3)
    (P : Matrix (Fin n) (Fin 3) ℝ) : Matrix (Fin n) (Fin 3) ℝ :=
  ((R_align * (P - Matrix.of fun _ j => scene_center j).transpose :
      Matrix (Fin 3) (Fin n) ℝ)).transpose

/-- Modelled from the spec: the per-point alignment map
`point' = R_align @ (point - scene_center)` (section 4.1, operation `apply`). -/
def alignPoint (R_align : M3) (scene_center : V3) (p : V3) : V3 :=
  R_align.mulVec (p - scene_center)

/-! ## Basic facts about the vector algebra -/

theorem dot3_self_nonneg (v : V3) : 0 ≤ dot3 v v := by
  have h0 := sq_nonneg (v 0)
  have h1 := sq_nonneg (v 1)
  have h2 := sq_nonneg (v 2)
  simp only [dot3]
  nlinarith

theorem norm3_sq (v : V3) : norm3 v ^ 2 = dot3 v v :=
  Real.sq_sqrt (dot3_self_nonneg v)

theorem norm3_of_unit {v : V3} (h : dot3 v v = 1) : norm3 v = 1 := by
  simp [norm3, h]

theorem normalize3_of_unit {v : V3} (h : dot3 v v = 1) : normalize3 v = v := by
  funext i
  simp [normalize3, norm3_of_unit h]

theorem rot_eq_rotCore {a b : V3} (ha : dot3 a a = 1) (hb : dot3 b b = 1) :
    rot_from_a_to_b a b = rotCore a b := by
  simp [rot_from_a_to_b, normalize3_of_unit ha, normalize3_of_unit hb]

/-- Lagrange's identity for the 3-dimensional cross product; a pure polynomial
fact, no hypotheses needed. -/
theorem dot3_cross3_self (a b : V3) :
    dot3 (cross3 a b) (cross3 a b) = dot3 a a * dot3 b b - dot3 a b ^ 2 := by
  simp only [dot3, cross3]
  simp only [Matrix.cons_val_zero, Matrix.cons_val_one, Matrix.head_cons,
    Matrix.cons_val_two, Matrix.tail_cons]
  ring

/-- The cross product is orthogonal to its first factor. -/
theorem dot3_cross3_left (a b : V3) : dot3 (cross3 a b) a = 0 := by
  simp only [dot3, cross3]
  simp only [Matrix.cons_val_zero, Matrix.cons_val_one, Matrix.head_cons,
    Matrix.cons_val_two, Matrix.tail_cons]
  ring

/-- Triple product expansion `(a × b) × a = (a·a) b − (a·b) a`; pure identity. -/
theorem cross3_cross3_left (a b : V3) :
    cross3 (cross3 a b) a = dot3 a a • b - dot3 a b • a := by
  funext i
  fin_cases i <;>
    · simp [cross3, dot3]
      ring

/-- Triple product expansion `v × (v × x) = (v·x) v − (v·v) x`; pure identity. -/
theorem cross3_cross3_self (v x : V3) :
    cross3 v (cross3 v x) = dot3 v x • v - dot3 v v • x := by
  funext i
  fin_cases i <;>
    · simp [cross3, dot3]
      ring

/-- The skew matrix of `v` acts on vectors as the cross product with `v`. -/
theorem crossMat_mulVec (v x : V3) : (crossMat v).mulVec x = cross3 v x := by
  funext i
  fin_cases i <;>
    · simp [crossMat, cross3, Matrix.mulVec, Matrix.dotProduct, Fin.sum_univ_three]
      ring

theorem isclose_self (y : ℝ) : isclose y y := by
  simp only [isclose, sub_self, abs_zero]
  positivity

theorem ne_of_not_isclose {x y : ℝ} (h : ¬ isclose x y) : x ≠ y := by
  intro hxy
  exact h (hxy ▸ isclose_self y)

theorem not_isclose_neg_one_one : ¬ isclose (-1 : ℝ) 1 := by
  simp only [isclose, abs_one]
  intro h
  have : |(-1 : ℝ) - 1| = 2 := by norm_num
  rw [this] at h
  norm_num at h

theorem not_isclose_zero_one : ¬ isclose (0 : ℝ) 1 := by
  simp only [isclose, abs_one]
  intro h
  have : |(0 : ℝ) - 1| = 1 := by norm_num
  rw [this] at h
  norm_num at h

theorem not_isclose_zero_neg_one : ¬ isclose (0 : ℝ) (-1) := by
  simp only [isclose]
  intro h
  have h1 : |(0 : ℝ) - (-1)| = 1 := by norm_num
  have h2 : |(-1 : ℝ)| = 1 := by norm_num
  rw [h1, h2] at h
  norm_num at h

/-- Two unit vectors with dot product `1` are equal. -/
theorem eq_of_unit_dot3_one {a b : V3} (ha : dot3 a a = 1) (hb : dot3 b b = 1)
    (hab : dot3 a b = 1) : a = b := by
  simp only [dot3] at ha hb hab
  have h0 : (a 0 - b 0) ^ 2 = 0 := by
    nlinarith [sq_nonneg (a 0 - b 0), sq_nonneg (a 1 - b 1), sq_nonneg (a 2 - b 2)]
  have h1 : (a 1 - b 1) ^ 2 = 0 := by
    nlinarith [sq_nonneg (a 0 - b 0), sq_nonneg (a 1 - b 1), sq_nonneg (a 2 - b 2)]
  have h2 : (a 2 - b 2) ^ 2 = 0 := by
    nlinarith [sq_nonneg (a 0 - b 0), sq_nonneg (a 1 - b 1), sq_nonneg (a 2 - b 2)]
  funext i
  fin_cases i
  · exact sub_eq_zero.mp (pow_eq_zero_iff two_ne_zero |>.mp h0)
  · exact sub_eq_zero.mp (pow_eq_zero_iff two_ne_zero |>.mp h1)
  · exact sub_eq_zero.mp (pow_eq_zero_iff two_ne_zero |>.mp h2)

/-- Two unit vectors with dot product `-1` are opposite. -/
theorem neg_of_unit_dot3_neg_one {a b : V3} (ha : dot3 a a = 1) (hb : dot3 b b = 1)
    (hab : dot3 a b = -1) : b = -a := by
  simp only [dot3] at ha hb hab
  have h0 : (a 0 + b 0) ^ 2 = 0 := by
    nlinarith [sq_nonneg (a 0 + b 0), sq_nonneg (a 1 + b 1), sq_nonneg (a 2 + b 2)]
  have h1 : (a 1 + b 1) ^ 2 = 0 := by
    nlinarith [sq_nonneg (a 0 + b 0), sq_nonneg (a 1 + b 1), sq_nonneg (a 2 + b 2)]
  have h2 : (a 2 + b 2) ^ 2 = 0 := by
    nlinarith [sq_nonneg (a 0 + b 0), sq_nonneg (a 1 + b 1), sq_nonneg (a 2 + b 2)]
  funext i
  fin_cases i
  · have := pow_eq_zero_iff (n := 2) two_ne_zero |>.mp h0
    show b 0 = -(a 0)
    linarith
  · have := pow_eq_zero_iff (n := 2) two_ne_zero |>.mp h1
    show b 1 = -(a 1)
    linarith
  · have := pow_eq_zero_iff (n := 2) two_ne_zero |>.mp h2
    show b 2 = -(a 2)
    linarith

/-! ## Zero-vector inputs flow through with no error -/

theorem cross3_zero_left (b : V3) : cross3 (fun _ => (0 : ℝ)) b = fun _ => (0 : ℝ) := by
  funext i
  fin_cases i <;> simp [cross3]

theorem crossMat_zero_fun : crossMat (fun _ => (0 : ℝ)) = 0 := by
  ext i j
  fin_cases i <;> fin_cases j <;>
    simp [crossMat, Matrix.vecHead, Matrix.vecTail]

theorem rotCore_zero_left (b : V3) : rotCore (fun _ => (0 : ℝ)) b = 1 := by
  have hc : dot3 (fun _ => (0 : ℝ)) b = 0 := by simp [dot3]
  unfold rotCore
  rw [hc, if_neg not_isclose_zero_one, if_neg not_isclose_zero_neg_one,
    cross3_zero_left, crossMat_zero_fun]
  simp

theorem normalize3_zero3 : normalize3 ![0, 0, 0] = fun _ => (0 : ℝ) := by
  funext i
  fin_cases i <;> simp [normalize3]

/-- The zero input is divided by its zero norm (still the zero vector in the
real-valued model; `NaN` in floating point) and the function returns a matrix:
no `InvalidInput` error path exists anywhere in the routine. -/
theorem rot_zero_left (b : V3) : rot_from_a_to_b ![0, 0, 0] b = 1 := by
  unfold rot_from_a_to_b
  rw [normalize3_zero3, rotCore_zero_left]

/-- C4 counterexample: on a zero-length direction vector the routine does not
raise any error — it normalizes by a zero norm and returns a matrix (the
identity in this exact-arithmetic model; a `NaN`-filled matrix in floating
point).  No `InvalidInput` error exists in the code. -/
theorem C4_zero_input_returns_matrix : rot_from_a_to_b ![0, 0, 0] ![0, 0, 1] = 1 :=
  rot_zero_left ![0, 0, 1]

/-- C4 (amended): `rot_from_a_to_b` performs no validity check on its inputs.
For a zero-length first argument it divides by the zero norm and still returns
a matrix for every second argument (the identity in this exact model; `NaN`
entries in floating point), instead of raising an `InvalidInput` error. -/
theorem C4_no_invalid_input_check (b : V3) : rot_from_a_to_b ![0, 0, 0] b = 1 :=
  rot_zero_left b

/-! ## The apply operation -/

/-- C5: the `apply_RT` closure returns exactly
`(R_align @ R, R_align @ (t - scene_center))`, and row `i` of the stacked
point update `(R_align @ (pts - scene_center).T).T` is exactly the spec's
per-point map `R_align @ (point - scene_center)`. -/
theorem C5_apply_exact (R_align : M3) (scene_center : V3) (R : M3) (t : V3)
    {n : ℕ} (P : Matrix (Fin n) (Fin 3) ℝ) (i : Fin n) :
    apply_RT R_align scene_center R t =
      (R_align * R, R_align.mulVec (t - scene_center)) ∧
    (fun j => reorientPoints R_align scene_center P i j) =
      alignPoint R_align scene_center (fun j => P i j) := by
  refine ⟨rfl, ?_⟩
  funext j
  simp [reorientPoints, alignPoint, Matrix.mul_apply, Matrix.mulVec,
    Matrix.dotProduct, Matrix.transpose_apply, Matrix.sub_apply,
    Fin.sum_univ_three]

/-! ## Degenerate averaged up vector: no error is raised -/

theorem sceneRAlign_of_zero_avg {Rs : List M3}
    (h : averageUp Rs = fun _ => (0 : ℝ)) : sceneRAlign Rs = 1 := by
  have hz : normalize3 (fun _ => (0 : ℝ)) = fun _ => (0 : ℝ) := by
    funext i
    simp [normalize3]
  unfold sceneRAlign rot_from_a_to_b normalizedAverageUp
  rw [h]
  simp only [hz]
  exact rotCore_zero_left _

theorem averageUp_pair_cancel {R1 R2 : M3}
    (h : ∀ i, worldUp R1 i + worldUp R2 i = 0) :
    averageUp [R1, R2] = fun _ => (0 : ℝ) := by
  funext i
  simp only [averageUp, List.map_cons, List.map_nil, List.sum_cons,
    List.sum_nil, List.length_cons, List.length_nil, add_zero]
  rw [h i]
  simp

/-- C3 (amended): when two equally weighted poses have exactly opposite
world-space up vectors, the averaged up vector is exactly zero; the code
performs no magnitude check, normalizes the zero vector by its zero norm
(`NaN` in floating point, the zero vector in this exact model) and hands the
result to `rot_from_a_to_b`, which returns a rotation value.  No
`DegenerateAlignment` error is raised anywhere. -/
theorem C3_degenerate_alignment_is_silent (R1 R2 : M3)
    (h : ∀ i, worldUp R1 i + worldUp R2 i = 0) :
    averageUp [R1, R2] = (fun _ => (0 : ℝ)) ∧ sceneRAlign [R1, R2] = 1 :=
  ⟨averageUp_pair_cancel h, sceneRAlign_of_zero_avg (averageUp_pair_cancel h)⟩

/-- The 180° rotation about the world Z axis; a proper rotation whose
world-space up vector `(0, 1, 0)` is exactly opposite to the identity pose's
world-space up vector `(0, -1, 0)`. -/
def rotZ180 : M3 := Matrix.of ![![-1, 0, 0], ![0, -1, 0], ![0, 0, 1]]

theorem worldUp_pair_cancel_concrete :
    ∀ i, worldUp (1 : M3) i + worldUp rotZ180 i = 0 := by
  intro i
  fin_cases i <;>
    · simp [worldUp, rotZ180, camLocalUp, Matrix.mulVec, Matrix.dotProduct,
        Matrix.transpose_apply, Fin.sum_univ_three]

/-- C3 counterexample: for the two equally weighted poses `identity` and
`180° about Z`, whose world-space up vectors are exactly opposite, the
scene-alignment computation does not raise a `DegenerateAlignment` error:
it silently evaluates to a value (the averaged up vector is zero and
`R_align` comes out as the identity matrix in this exact model; in floating
point the same path produces `NaN` entries). -/
theorem C3_opposite_ups_produce_value :
    averageUp [(1 : M3), rotZ180] = (fun _ => (0 : ℝ)) ∧
      sceneRAlign [(1 : M3), rotZ180] = 1 :=
  ⟨averageUp_pair_cancel worldUp_pair_cancel_concrete,
   sceneRAlign_of_zero_avg (averageUp_pair_cancel worldUp_pair_cancel_concrete)⟩

/-- C3 witness: the amended theorem applied at the concrete opposite pair. -/
theorem C3_degenerate_alignment_is_silent_witness :
    (∀ i, worldUp (1 : M3) i + worldUp rotZ180 i = 0) ∧
      sceneRAlign [(1 : M3), rotZ180] = 1 :=
  ⟨worldUp_pair_cancel_concrete,
   (C3_degenerate_alignment_is_silent 1 rotZ180 worldUp_pair_cancel_concrete).2⟩

/-! ## Rigidity of the alignment transform -/

theorem dot3_mulVec_orth {R : M3} (hR : R.transpose * R = 1) (v w : V3) :
    dot3 (R.mulVec v) (R.mulVec w) = dot3 v w := by
  have h := fun j k => congrFun (congrFun hR j) k
  have h00 := h 0 0
  have h01 := h 0 1
  have h02 := h 0 2
  have h10 := h 1 0
  have h11 := h 1 1
  have h12 := h 1 2
  have h20 := h 2 0
  have h21 := h 2 1
  have h22 := h 2 2
  simp only [Matrix.mul_apply, Matrix.transpose_apply, Fin.sum_univ_three,
    Matrix.one_apply] at h00 h01 h02 h10 h11 h12 h20 h21 h22
  norm_num [Fin.ext_iff] at h00 h01 h02 h10 h11 h12 h20 h21 h22
  simp only [dot3, Matrix.mulVec, Matrix.dotProduct, Fin.sum_univ_three]
  linear_combination v 0 * w 0 * h00 + v 0 * w 1 * h01 + v 0 * w 2 * h02 +
    v 1 * w 0 * h10 + v 1 * w 1 * h11 + v 1 * w 2 * h12 +
    v 2 * w 0 * h20 + v 2 * w 1 * h21 + v 2 * w 2 * h22

theorem alignPoint_sub (R : M3) (c x y : V3) :
    alignPoint R c x - alignPoint R c y = R.mulVec (x - y) := by
  unfold alignPoint
  rw [← Matrix.mulVec_sub, sub_sub_sub_cancel_right]

/-- C6: for an orthonormal alignment rotation (with determinant `+1`), the
per-point alignment map preserves all pairwise Euclidean distances and the dot
products (hence angles) between difference vectors — it is a rigid transform
with no scaling, shear, or reflection. -/
theorem C6_alignment_preserves_distances (R_align : M3) (scene_center : V3)
    (hR : R_align.transpose * R_align = 1) (hdet : R_align.det = 1)
    (p q r : V3) :
    norm3 (alignPoint R_align scene_center p - alignPoint R_align scene_center q) =
      norm3 (p - q) ∧
    dot3 (alignPoint R_align scene_center p - alignPoint R_align scene_center q)
        (alignPoint R_align scene_center r - alignPoint R_align scene_center q) =
      dot3 (p - q) (r - q) := by
  constructor
  · rw [alignPoint_sub]
    unfold norm3
    rw [dot3_mulVec_orth hR]
  · rw [alignPoint_sub, alignPoint_sub, dot3_mulVec_orth hR]

/-- C6 witness: the rigidity theorem applied to the identity rotation, a zero
scene center and three concrete points. -/
theorem C6_alignment_preserves_distances_witness :
    ((1 : M3).transpose * 1 = 1) ∧ (1 : M3).det = 1 ∧
    (norm3 (alignPoint 1 (fun _ => (0 : ℝ)) ![1, 0, 0] -
        alignPoint 1 (fun _ => (0 : ℝ)) ![0, 0, 0]) =
      norm3 (![1, 0, 0] - ![0, 0, 0]) ∧
    dot3 (alignPoint 1 (fun _ => (0 : ℝ)) ![1, 0, 0] -
        alignPoint 1 (fun _ => (0 : ℝ)) ![0, 0, 0])
        (alignPoint 1 (fun _ => (0 : ℝ)) ![0, 1, 0] -
          alignPoint 1 (fun _ => (0 : ℝ)) ![0, 0, 0]) =
      dot3 (![1, 0, 0] - ![0, 0, 0]) (![0, 1, 0] - ![0, 0, 0])) :=
  ⟨by simp, by simp,
   C6_alignment_preserves_distances 1 (fun _ => (0 : ℝ)) (by simp) (by simp)
     ![1, 0, 0] ![0, 0, 0] ![0, 1, 0]⟩

/-! ## Scale invariance of the inputs -/

theorem norm3_smul_pos {l : ℝ} (hl : 0 < l) (a : V3) :
    norm3 (l • a) = l * norm3 a := by
  unfold norm3
  have h : dot3 (l • a) (l • a) = l ^ 2 * dot3 a a := by
    simp only [dot3, Pi.smul_apply, smul_eq_mul]
    ring
  rw [h, Real.sqrt_mul (sq_nonneg l), Real.sqrt_sq hl.le]

theorem normalize3_smul_pos {l : ℝ} (hl : 0 < l) (a : V3) :
    normalize3 (l • a) = normalize3 a := by
  funext i
  simp only [normalize3, norm3_smul_pos hl, Pi.smul_apply, smul_eq_mul]
  rw [mul_div_mul_left _ _ (ne_of_gt hl)]

/-- C9: the routine depends only on the directions of its inputs — positive
rescalings of either argument do not change the returned matrix, because both
inputs are divided by their norms before anything else is computed. -/
theorem C9_scale_invariant (a b : V3) (l m : ℝ) (ha : a ≠ 0) (hb : b ≠ 0)
    (hl : 0 < l) (hm : 0 < m) :
    rot_from_a_to_b (l • a) (m • b) = rot_from_a_to_b a b := by
  unfold rot_from_a_to_b
  rw [normalize3_smul_pos hl, normalize3_smul_pos hm]

/-- C9 witness: doubling and tripling two concrete nonzero inputs leaves the
result unchanged. -/
theorem C9_scale_invariant_witness :
    (![1, 0, 0] : V3) ≠ 0 ∧ (![0, 1, 0] : V3) ≠ 0 ∧ (0 : ℝ) < 2 ∧ (0 : ℝ) < 3 ∧
    rot_from_a_to_b ((2 : ℝ) • ![1, 0, 0]) ((3 : ℝ) • ![0, 1, 0]) =
      rot_from_a_to_b ![1, 0, 0] ![0, 1, 0] := by
  refine ⟨?_, ?_, by norm_num, by norm_num, ?_⟩
  · intro h
    have := congrFun h 0
    simp at this
  · intro h
    have := congrFun h 1
    simp at this
  · exact C9_scale_invariant ![1, 0, 0] ![0, 1, 0] 2 3
      (by intro h; have := congrFun h 0; simp at this)
      (by intro h; have := congrFun h 1; simp at this)
      (by norm_num) (by norm_num)

/-! ## Already-aligned average up vector -/

theorem rotCore_self_unit {u : V3} (hu : dot3 u u = 1) : rotCore u u = 1 := by
  unfold rotCore
  rw [hu, if_pos (isclose_self 1)]

theorem target_up_unit : dot3 target_up target_up = 1 := by
  simp [dot3, target_up]

/-- C8: if the normalized averaged up vector already equals the target up
axis, the scene-alignment rotation is exactly the identity matrix. -/
theorem C8_aligned_average_gives_identity (Rs : List M3) (hne : Rs ≠ [])
    (h : normalizedAverageUp Rs = target_up) : sceneRAlign Rs = 1 := by
  unfold sceneRAlign
  rw [h, rot_eq_rotCore target_up_unit target_up_unit,
    rotCore_self_unit target_up_unit]

/-- A pose whose world-space up vector is exactly the target `+Z` axis. -/
def poseZup : M3 := Matrix.of ![![1, 0, 0], ![0, 0, -1], ![0, 1, 0]]

theorem poseZup_average : normalizedAverageUp [poseZup] = target_up := by
  have havg : averageUp [poseZup] = target_up := by
    funext i
    fin_cases i <;>
      simp [averageUp, worldUp, poseZup, camLocalUp, target_up, Matrix.mulVec,
        Matrix.dotProduct, Fin.sum_univ_three, Matrix.transpose_apply]
  unfold normalizedAverageUp
  rw [havg, normalize3_of_unit target_up_unit]

/-- C8 witness: the theorem applied to the singleton pose list whose world-up
vector is exactly `(0, 0, 1)`. -/
theorem C8_aligned_average_gives_identity_witness :
    ([poseZup] ≠ ([] : List M3)) ∧ normalizedAverageUp [poseZup] = target_up ∧
      sceneRAlign [poseZup] = 1 :=
  ⟨by simp, poseZup_average,
   C8_aligned_average_gives_identity [poseZup] (by simp) poseZup_average⟩

/-! ## The result is always a proper rotation on unit inputs -/

theorem norm3_pos {w : V3} (h : 0 < dot3 w w) : 0 < norm3 w :=
  Real.sqrt_pos.mpr h

theorem dot3_normalize3_self {w : V3} (h : 0 < dot3 w w) :
    dot3 (normalize3 w) (normalize3 w) = 1 := by
  have hNne : norm3 w ≠ 0 := ne_of_gt (norm3_pos h)
  have hs : norm3 w * norm3 w = dot3 w w := by
    have := norm3_sq w
    nlinarith [this]
  simp only [normalize3, dot3]
  field_simp
  simp only [dot3] at hs
  linarith [hs]

/-- The auxiliary vector choice guarantees a nonzero cross product: when
`|a 0| < 0.9` the world X axis is used and `|a × X|² = a₁² + a₂² = 1 − a₀² > 0.19`;
otherwise the world Y axis is used and `|a × Y|² = a₀² + a₂² ≥ 0.81`. -/
theorem tmp_cross_pos {a : V3} (ha : dot3 a a = 1) :
    0 < dot3 (cross3 a (tmpOf a)) (cross3 a (tmpOf a)) := by
  unfold tmpOf
  split_ifs with h
  · have he : dot3 (cross3 a ![1, 0, 0]) (cross3 a ![1, 0, 0]) = a 1 ^ 2 + a 2 ^ 2 := by
      simp [dot3, cross3]
      ring
    rw [he]
    have habs := abs_lt.mp h
    simp only [dot3] at ha
    nlinarith [habs.1, habs.2]
  · have he : dot3 (cross3 a ![0, 1, 0]) (cross3 a ![0, 1, 0]) = a 0 ^ 2 + a 2 ^ 2 := by
      simp [dot3, cross3]
      ring
    rw [he]
    push_neg at h
    have h2 : (81 : ℝ) / 100 ≤ a 0 ^ 2 := by
      nlinarith [sq_abs (a 0), abs_nonneg (a 0)]
    nlinarith [sq_nonneg (a 2)]

theorem oppositeAxis_unit {a : V3} (ha : dot3 a a = 1) :
    dot3 (oppositeAxis a) (oppositeAxis a) = 1 :=
  dot3_normalize3_self (tmp_cross_pos ha)

/-- Orthogonality of the general Rodrigues matrix, under the single scalar
constraint `α²·(w·w) = 2α − 1` satisfied by `α = (1−c)/(1−c²)`. -/
theorem rodriguesOrth (w : V3) (al : ℝ) (hcond : al ^ 2 * dot3 w w = 2 * al - 1) :
    (1 + crossMat w + al • (crossMat w * crossMat w)).transpose *
      (1 + crossMat w + al • (crossMat w * crossMat w)) = 1 := by
  simp only [dot3] at hcond
  ext i j
  fin_cases i <;> fin_cases j <;>
    simp [Matrix.mul_apply, Matrix.transpose_apply, Matrix.one_apply, crossMat,
      Fin.sum_univ_three, Matrix.add_apply, Matrix.smul_apply, smul_eq_mul,
      Matrix.vecHead, Matrix.vecTail]
  · linear_combination (w 1 ^ 2 + w 2 ^ 2) * hcond
  · linear_combination (-(w 0 * w 1)) * hcond
  · linear_combination (-(w 0 * w 2)) * hcond
  · linear_combination (-(w 0 * w 1)) * hcond
  · linear_combination (w 0 ^ 2 + w 2 ^ 2) * hcond
  · linear_combination (-(w 1 * w 2)) * hcond
  · linear_combination (-(w 0 * w 2)) * hcond
  · linear_combination (-(w 1 * w 2)) * hcond
  · linear_combination (w 0 ^ 2 + w 1 ^ 2) * hcond

/-- Determinant of the general Rodrigues matrix; a pure polynomial identity. -/
theorem rodriguesDet (w : V3) (al : ℝ) :
    (1 + crossMat w + al • (crossMat w * crossMat w)).det =
      (1 - al * dot3 w w) ^ 2 + dot3 w w := by
  simp [Matrix.det_fin_three, crossMat, Matrix.add_apply, Matrix.smul_apply,
    Matrix.one_apply, Matrix.mul_apply, Fin.sum_univ_three, dot3, smul_eq_mul,
    Matrix.vecHead, Matrix.vecTail]
  ring

/-- The half-turn matrix `2uuᵗ − I` of a unit vector is orthogonal. -/
theorem halfTurnOrth {u : V3} (hu : dot3 u u = 1) :
    ((2 : ℝ) • outer3 u u - 1).transpose * ((2 : ℝ) • outer3 u u - 1) = 1 := by
  simp only [dot3] at hu
  ext i j
  fin_cases i <;> fin_cases j <;>
    simp [Matrix.mul_apply, Matrix.transpose_apply, Matrix.one_apply, outer3,
      Fin.sum_univ_three, Matrix.sub_apply, Matrix.smul_apply, smul_eq_mul]
  · linear_combination 4 * u 0 * u 0 * hu
  · linear_combination 4 * u 0 * u 1 * hu
  · linear_combination 4 * u 0 * u 2 * hu
  · linear_combination 4 * u 0 * u 1 * hu
  · linear_combination 4 * u 1 * u 1 * hu
  · linear_combination 4 * u 1 * u 2 * hu
  · linear_combination 4 * u 0 * u 2 * hu
  · linear_combination 4 * u 1 * u 2 * hu
  · linear_combination 4 * u 2 * u 2 * hu

/-- Determinant of the half-turn matrix; a pure polynomial identity. -/
theorem halfTurnDet (u : V3) :
    ((2 : ℝ) • outer3 u u - 1).det = 2 * dot3 u u - 1 := by
  simp [Matrix.det_fin_three, outer3, Matrix.sub_apply, Matrix.smul_apply,
    Matrix.one_apply, dot3, smul_eq_mul]
  ring

/-- C2: for every pair of unit-length inputs — including near-degenerate pairs
whose dot product lies inside either `isclose` tolerance band — the returned
matrix is exactly a proper rotation in this real-number model: `Rᵀ R = I` and
`det R = +1`.  All three branches are covered. -/
theorem C2_rot_is_proper_rotation (a b : V3) (ha : dot3 a a = 1)
    (hb : dot3 b b = 1) :
    (rot_from_a_to_b a b).transpose * rot_from_a_to_b a b = 1 ∧
      (rot_from_a_to_b a b).det = 1 := by
  rw [rot_eq_rotCore ha hb]
  unfold rotCore
  split_ifs with h1 h2
  · exact ⟨by simp, by simp⟩
  · refine ⟨halfTurnOrth (oppositeAxis_unit ha), ?_⟩
    rw [halfTurnDet, oppositeAxis_unit ha]
    norm_num
  · have hc1 : dot3 a b ≠ 1 := ne_of_not_isclose h1
    have hc2 : dot3 a b ≠ -1 := ne_of_not_isclose h2
    have hn : dot3 (cross3 a b) (cross3 a b) = 1 - dot3 a b ^ 2 := by
      rw [dot3_cross3_self, ha, hb]
      ring
    have hnz : (1 : ℝ) - dot3 a b ^ 2 ≠ 0 := by
      intro h0
      have hfact : (1 - dot3 a b) * (1 + dot3 a b) = 0 := by linear_combination h0
      rcases mul_eq_zero.mp hfact with hx | hx
      · exact hc1 (by linarith)
      · exact hc2 (by linarith)
    have hsq : norm3 (cross3 a b) ^ 2 = 1 - dot3 a b ^ 2 := by rw [norm3_sq, hn]
    rw [hsq]
    have hcond : ((1 - dot3 a b) / (1 - dot3 a b ^ 2)) ^ 2 *
        dot3 (cross3 a b) (cross3 a b) =
        2 * ((1 - dot3 a b) / (1 - dot3 a b ^ 2)) - 1 := by
      rw [hn]
      field_simp
      ring
    refine ⟨rodriguesOrth _ _ hcond, ?_⟩
    rw [rodriguesDet, hn, div_mul_cancel₀ _ hnz]
    ring

/-- C2 witness: the proper-rotation theorem applied at the concrete unit pair
`X`, `Y` (which takes the general Rodrigues branch). -/
theorem C2_rot_is_proper_rotation_witness :
    dot3 ![1, 0, 0] ![1, 0, 0] = 1 ∧ dot3 ![0, 1, 0] ![0, 1, 0] = 1 ∧
    ((rot_from_a_to_b ![1, 0, 0] ![0, 1, 0]).transpose *
        rot_from_a_to_b ![1, 0, 0] ![0, 1, 0] = 1 ∧
      (rot_from_a_to_b ![1, 0, 0] ![0, 1, 0]).det = 1) :=
  ⟨by norm_num [dot3], by norm_num [dot3],
   C2_rot_is_proper_rotation ![1, 0, 0] ![0, 1, 0]
     (by norm_num [dot3]) (by norm_num [dot3])⟩

/-! ## What the returned matrix does to the source vector -/

theorem halfTurn_mulVec (u x : V3) :
    ((2 : ℝ) • outer3 u u - 1).mulVec x = (2 * dot3 u x) • u - x := by
  funext i
  fin_cases i <;>
    · simp [outer3, Matrix.mulVec, Matrix.dotProduct, Matrix.sub_apply,
        Matrix.smul_apply, Fin.sum_univ_three, dot3, smul_eq_mul,
        Matrix.one_apply, Matrix.vecHead, Matrix.vecTail, Fin.ext_iff]
      ring

theorem oppositeAxis_perp (a : V3) : dot3 (oppositeAxis a) a = 0 := by
  simp only [oppositeAxis, normalize3, dot3]
  rw [div_mul_eq_mul_div, div_mul_eq_mul_div, div_mul_eq_mul_div,
    div_add_div_same, div_add_div_same]
  have h := dot3_cross3_left a (tmpOf a)
  simp only [dot3] at h
  rw [h, zero_div]

/-- C1 (amended): on unit inputs the returned matrix maps `a` exactly onto `b`
whenever the branch that fires matches its exact condition: when `dot(a,b)` is
exactly `1`, exactly `-1`, or outside both `isclose` tolerance bands.  (When a
tolerance branch fires at `dot(a,b) ≠ ±1` the result can miss `b` by far more
than `1e-6`; see the counterexample.) -/
theorem C1_rot_maps_a_to_b (a b : V3) (ha : dot3 a a = 1) (hb : dot3 b b = 1)
    (h : dot3 a b = 1 ∨ dot3 a b = -1 ∨
      (¬ isclose (dot3 a b) 1 ∧ ¬ isclose (dot3 a b) (-1))) :
    (rot_from_a_to_b a b).mulVec a = b := by
  rw [rot_eq_rotCore ha hb]
  unfold rotCore
  rcases h with h1 | h2 | ⟨h3, h4⟩
  · rw [h1, if_pos (isclose_self 1), Matrix.one_mulVec]
    exact eq_of_unit_dot3_one ha hb h1
  · rw [h2, if_neg not_isclose_neg_one_one, if_pos (isclose_self (-1)),
      halfTurn_mulVec, oppositeAxis_perp, neg_of_unit_dot3_neg_one ha hb h2]
    funext i
    simp only [Pi.sub_apply, Pi.smul_apply, smul_eq_mul, Pi.neg_apply]
    ring
  · rw [if_neg h3, if_neg h4]
    have hc1 : dot3 a b ≠ 1 := ne_of_not_isclose h3
    have hc2 : dot3 a b ≠ -1 := ne_of_not_isclose h4
    have hn : dot3 (cross3 a b) (cross3 a b) = 1 - dot3 a b ^ 2 := by
      rw [dot3_cross3_self, ha, hb]
      ring
    have hnz : (1 : ℝ) - dot3 a b ^ 2 ≠ 0 := by
      intro h0
      have hfact : (1 - dot3 a b) * (1 + dot3 a b) = 0 := by linear_combination h0
      rcases mul_eq_zero.mp hfact with hx | hx
      · exact hc1 (by linarith)
      · exact hc2 (by linarith)
    have hsq : norm3 (cross3 a b) ^ 2 = 1 - dot3 a b ^ 2 := by rw [norm3_sq, hn]
    rw [hsq, Matrix.add_mulVec, Matrix.add_mulVec, Matrix.one_mulVec,
      Matrix.smul_mulVec_assoc, ← Matrix.mulVec_mulVec, crossMat_mulVec,
      crossMat_mulVec, cross3_cross3_self, cross3_cross3_left,
      dot3_cross3_left, hn, ha]
    funext i
    simp only [Pi.add_apply, Pi.sub_apply, Pi.smul_apply, smul_eq_mul]
    field_simp
    ring

/-- C1 witness: the amended theorem at the unit pair `X`, `Y`, whose dot
product `0` lies outside both tolerance bands. -/
theorem C1_rot_maps_a_to_b_witness :
    dot3 ![1, 0, 0] ![1, 0, 0] = 1 ∧ dot3 ![0, 1, 0] ![0, 1, 0] = 1 ∧
    (rot_from_a_to_b ![1, 0, 0] ![0, 1, 0]).mulVec ![1, 0, 0] = ![0, 1, 0] :=
  ⟨by norm_num [dot3], by norm_num [dot3],
   C1_rot_maps_a_to_b ![1, 0, 0] ![0, 1, 0] (by norm_num [dot3])
     (by norm_num [dot3])
     (Or.inr (Or.inr ⟨by
        have h : dot3 ![1, 0, 0] ![0, 1, 0] = 0 := by norm_num [dot3]
        rw [h]
        exact not_isclose_zero_one, by
        have h : dot3 ![1, 0, 0] ![0, 1, 0] = 0 := by norm_num [dot3]
        rw [h]
        exact not_isclose_zero_neg_one⟩))⟩

/-- The second component of the C1 counterexample: the exact rational unit
vector `((1 - t²)/(1 + t²), 2t/(1 + t²), 0)` for `t = 1/450`, whose dot
product with the X axis is `202499/202501 ≈ 1 - 9.877e-6`, inside the
`np.isclose(c, 1.0)` tolerance band `1e-8 + 1e-5`. -/
noncomputable def bNear : V3 := ![202499 / 202501, 900 / 202501, 0]

theorem isclose_bNear : isclose ((202499 : ℝ) / 202501) 1 := by
  unfold isclose
  have h : (202499 : ℝ) / 202501 - 1 = -(2 / 202501) := by norm_num
  rw [h, abs_neg, abs_one, abs_of_nonneg (by norm_num)]
  norm_num

/-- C1 counterexample: both inputs are exactly unit length, yet the returned
matrix maps `a` to a vector at Euclidean distance `> 1e-6` (in fact about
`4.4e-3`) from `b`: the dot product `202499/202501` falls inside the
`np.isclose(c, 1.0)` band, the already-aligned branch returns the identity,
and the identity does not move `a` onto `b`. -/
theorem C1_tolerance_band_violation :
    dot3 ![1, 0, 0] ![1, 0, 0] = 1 ∧ dot3 bNear bNear = 1 ∧
    1 / 1000000 <
      norm3 ((rot_from_a_to_b ![1, 0, 0] bNear).mulVec ![1, 0, 0] - bNear) := by
  have ha : dot3 ![(1 : ℝ), 0, 0] ![1, 0, 0] = 1 := by norm_num [dot3]
  have hb : dot3 bNear bNear = 1 := by norm_num [dot3, bNear]
  refine ⟨ha, hb, ?_⟩
  have hc : dot3 ![(1 : ℝ), 0, 0] bNear = 202499 / 202501 := by
    norm_num [dot3, bNear]
  have hrot : rot_from_a_to_b ![1, 0, 0] bNear = 1 := by
    rw [rot_eq_rotCore ha hb]
    unfold rotCore
    rw [hc, if_pos isclose_bNear]
  rw [hrot, Matrix.one_mulVec]
  unfold norm3
  rw [Real.lt_sqrt (by norm_num)]
  calc (1 / 1000000 : ℝ) ^ 2 < 810004 / (202501 * 202501) := by norm_num
    _ = dot3 (![(1 : ℝ), 0, 0] - bNear) (![(1 : ℝ), 0, 0] - bNear) := by
        norm_num [dot3, bNear, Pi.sub_apply]

/-! ## The opposite branch: spec wording versus code -/

/-- Modelled from the spec's words (section 4.1, degenerate case 2): pick the
world X axis unless `a` is nearly parallel to X (in which case world Y),
project out the component of that vector along `a`, and normalize the
result. -/
noncomputable def specOppositeAxis (a : V3) : V3 :=
  normalize3 (tmpOf a - dot3 (tmpOf a) a • a)

/-- Modelled from the spec's words: the 180° rotation `R = 2·axis·axisᵗ − I`
about the projection-based axis. -/
noncomputable def specOppositeMatrix (a : V3) : M3 :=
  (2 : ℝ) • outer3 (specOppositeAxis a) (specOppositeAxis a) - 1

theorem oppositeAxisAtZ : oppositeAxis ![0, 0, 1] = ![0, 1, 0] := by
  unfold oppositeAxis tmpOf
  rw [if_pos (by norm_num)]
  have hcr : cross3 ![(0 : ℝ), 0, 1] ![1, 0, 0] = ![0, 1, 0] := by
    funext i
    fin_cases i <;> norm_num [cross3]
  rw [hcr, normalize3_of_unit (by norm_num [dot3])]

theorem specOppositeAxisAtZ : specOppositeAxis ![0, 0, 1] = ![1, 0, 0] := by
  unfold specOppositeAxis tmpOf
  rw [if_pos (by norm_num)]
  have hd : dot3 ![(1 : ℝ), 0, 0] ![0, 0, 1] = 0 := by norm_num [dot3]
  rw [hd, zero_smul, sub_zero, normalize3_of_unit (by norm_num [dot3])]

theorem rotAtZOpp : rot_from_a_to_b ![0, 0, 1] ![0, 0, -1] =
    (2 : ℝ) • outer3 (oppositeAxis ![0, 0, 1]) (oppositeAxis ![0, 0, 1]) - 1 := by
  have ha : dot3 ![(0 : ℝ), 0, 1] ![0, 0, 1] = 1 := by norm_num [dot3]
  have hb : dot3 ![(0 : ℝ), 0, -1] ![0, 0, -1] = 1 := by norm_num [dot3]
  rw [rot_eq_rotCore ha hb]
  unfold rotCore
  have hc : dot3 ![(0 : ℝ), 0, 1] ![0, 0, -1] = -1 := by norm_num [dot3]
  rw [hc, if_neg not_isclose_neg_one_one, if_pos (isclose_self (-1))]

/-- C7 counterexample: at `a = (0,0,1)`, `b = (0,0,-1)` the opposite branch
fires; the code's axis is `normalize(cross(a, X)) = (0,1,0)` while the spec's
projection recipe yields `(1,0,0)`, and the two resulting 180° rotations
differ (entry `(0,0)` is `-1` versus `+1`). -/
theorem C7_axis_is_cross_not_projection :
    rot_from_a_to_b ![0, 0, 1] ![0, 0, -1] ≠ specOppositeMatrix ![0, 0, 1] := by
  intro hEq
  rw [rotAtZOpp, oppositeAxisAtZ] at hEq
  unfold specOppositeMatrix at hEq
  rw [specOppositeAxisAtZ] at hEq
  have h := congrFun (congrFun hEq 0) 0
  simp [outer3, Matrix.sub_apply, Matrix.smul_apply, Matrix.one_apply,
    smul_eq_mul] at h
  norm_num at h

/-- C7 (amended): in the exactly-opposite branch the rotation axis is the
normalized cross product of `a` with the auxiliary vector (world X unless
`|a 0| ≥ 0.9`, then world Y) — not the normalized projection of that vector —
and the returned matrix is the 180° rotation `2·axis·axisᵗ − I` about that
axis: the axis is unit length, orthogonal to `a`, fixed by the matrix, and
`a` is sent to `-a`. -/
theorem C7_opposite_branch_closed_form (a b : V3) (ha : dot3 a a = 1)
    (hb : dot3 b b = 1) (h1 : ¬ isclose (dot3 a b) 1)
    (h2 : isclose (dot3 a b) (-1)) :
    rot_from_a_to_b a b =
      (2 : ℝ) • outer3 (oppositeAxis a) (oppositeAxis a) - 1 ∧
    dot3 (oppositeAxis a) (oppositeAxis a) = 1 ∧
    dot3 (oppositeAxis a) a = 0 ∧
    (rot_from_a_to_b a b).mulVec (oppositeAxis a) = oppositeAxis a ∧
    (rot_from_a_to_b a b).mulVec a = -a := by
  have hM : rot_from_a_to_b a b =
      (2 : ℝ) • outer3 (oppositeAxis a) (oppositeAxis a) - 1 := by
    rw [rot_eq_rotCore ha hb]
    unfold rotCore
    rw [if_neg h1, if_pos h2]
  refine ⟨hM, oppositeAxis_unit ha, oppositeAxis_perp a, ?_, ?_⟩
  · rw [hM, halfTurn_mulVec, oppositeAxis_unit ha]
    funext i
    simp only [Pi.sub_apply, Pi.smul_apply, smul_eq_mul]
    ring
  · rw [hM, halfTurn_mulVec, oppositeAxis_perp a]
    funext i
    simp only [Pi.sub_apply, Pi.smul_apply, smul_eq_mul, Pi.neg_apply]
    ring

/-- C7 witness: the amended theorem at the concrete opposite pair
`(0,0,1)`, `(0,0,-1)`. -/
theorem C7_opposite_branch_closed_form_witness :
    dot3 ![0, 0, 1] ![0, 0, 1] = 1 ∧ dot3 ![0, 0, -1] ![0, 0, -1] = 1 ∧
    ((rot_from_a_to_b ![0, 0, 1] ![0, 0, -1]).mulVec ![0, 0, 1] =
      -![0, 0, 1]) := by
  have ha : dot3 ![(0 : ℝ), 0, 1] ![0, 0, 1] = 1 := by norm_num [dot3]
  have hb : dot3 ![(0 : ℝ), 0, -1] ![0, 0, -1] = 1 := by norm_num [dot3]
  have hc : dot3 ![(0 : ℝ), 0, 1] ![0, 0, -1] = -1 := by norm_num [dot3]
  refine ⟨ha, hb, ?_⟩
  exact (C7_opposite_branch_closed_form ![0, 0, 1] ![0, 0, -1] ha hb
    (by rw [hc]; exact not_isclose_neg_one_one)
    (by rw [hc]; exact isclose_self (-1))).2.2.2.2

/-! ## Every division has a nonzero divisor -/

/-- C10: on unit inputs every division performed by the routine has a nonzero
divisor: the two input normalizations divide by norm `1`; the opposite-branch
axis normalization divides by `|cross(a, tmp)| > 0` (the `0.9` threshold on
`|a 0|` keeps `a` away from the chosen auxiliary axis); and the
general-branch divisor `s² = |cross(a, b)|²` is nonzero whenever the two
tolerance branches have been excluded. -/
theorem C10_all_divisors_nonzero (a b : V3) (ha : dot3 a a = 1)
    (hb : dot3 b b = 1) :
    norm3 a = 1 ∧ norm3 b = 1 ∧
    0 < norm3 (cross3 a (tmpOf a)) ∧
    (¬ isclose (dot3 a b) 1 → ¬ isclose (dot3 a b) (-1) →
      norm3 (cross3 a b) ^ 2 ≠ 0) := by
  refine ⟨norm3_of_unit ha, norm3_of_unit hb, norm3_pos (tmp_cross_pos ha), ?_⟩
  intro h1 h2
  have hc1 : dot3 a b ≠ 1 := ne_of_not_isclose h1
  have hc2 : dot3 a b ≠ -1 := ne_of_not_isclose h2
  rw [norm3_sq, dot3_cross3_self, ha, hb]
  intro h0
  have hfact : (1 - dot3 a b) * (1 + dot3 a b) = 0 := by linear_combination h0
  rcases mul_eq_zero.mp hfact with hx | hx
  · exact hc1 (by linarith)
  · exact hc2 (by linarith)

/-- C10 witness: the divisor theorem at the unit pair `X`, `Y`. -/
theorem C10_all_divisors_nonzero_witness :
    dot3 ![1, 0, 0] ![1, 0, 0] = 1 ∧ dot3 ![0, 1, 0] ![0, 1, 0] = 1 ∧
    (0 < norm3 (cross3 ![1, 0, 0] (tmpOf ![1, 0, 0])) ∧
      norm3 (cross3 ![1, 0, 0] ![0, 1, 0]) ^ 2 ≠ 0) := by
  have ha : dot3 ![(1 : ℝ), 0, 0] ![1, 0, 0] = 1 := by norm_num [dot3]
  have hb : dot3 ![(0 : ℝ), 1, 0] ![0, 1, 0] = 1 := by norm_num [dot3]
  have h := C10_all_divisors_nonzero ![1, 0, 0] ![0, 1, 0] ha hb
  have hc : dot3 ![(1 : ℝ), 0, 0] ![0, 1, 0] = 0 := by norm_num [dot3]
  refine ⟨ha, hb, h.2.2.1, h.2.2.2 ?_ ?_⟩
  · rw [hc]
    exact not_isclose_zero_one
  · rw [hc]
    exact not_isclose_zero_neg_one

end ViserReorient
